import Mathlib

/-!
Shallow embedding of `src/limiter.c` (2013 LibSox lookahead limiter, ring-buffer
revision) and a verification of the specification claims about it.

Modelling conventions:
* `sox_sample_t` is a 32-bit signed sample; it is modelled as `Int` (no arithmetic in
  the claims under study ever leaves the 32-bit range, so wraparound is not modelled).
* The C ring buffer double-maps its backing pages: a read or write at offset
  `o ∈ [0, 2*size)` from `data` lands on physical slot `o % size`.  The model keeps the
  physical slot array (`data`, of length `size`) and performs every access modulo
  `size`, which is exactly the double-mapped semantics.
* The C `double gain` is modelled as an exact unreduced fraction `gain_t`
  (numerator/denominator pair).  The only gains the program ever computes are `1.0`
  and `threshold / abs(*max)`, and the only use of a gain is
  `*index = (double)(*index) * gain`, whose double→int conversion truncates toward
  zero; this is `Int.tdiv (x * num) den`, exactly.  (The sub-ulp rounding of IEEE
  doubles is idealised away; every claim here is insensitive to it.)
* Fallible C functions returning `-1`/`NULL`/`SOX_EOF` are modelled with `Option`.
* Loops are modelled by structural recursion on an explicit fuel that provably
  dominates the iteration count, so that concrete runs reduce in the kernel.
-/

/-- C `NUMBER_OF_CHANNELS` (the limiter is written for stereo only). -/
def NUMBER_OF_CHANNELS : Nat := 2

/-- C `SOX_SAMPLE_MAX` for the 32-bit `sox_sample_t`. -/
def SOX_SAMPLE_MAX : Int := 2147483647

/-- C `MAX_ZERO_CROSSING_VALUE = (0.01f * SOX_SAMPLE_MAX)`: the float `0.01f` is
`10737418 / 2^30`, the `int` constant `SOX_SAMPLE_MAX` converts to the float `2^31`,
and their float product is exactly `21474836.0f`, so the stored `sox_sample_t`
constant is `21474836`. -/
def MAX_ZERO_CROSSING_VALUE : Int := 21474836

/-- C `ring_buffer_t`.  `data` is the physical slot array of the double-mapped
backing store (length `size`); `position` is the slot index of the C `position`
pointer (offset of the pointer from `data`). -/
structure ring_buffer_t where
  data : List Int
  size : Nat
  available : Nat
  processed : Nat
  position : Nat
deriving Repr, DecidableEq

/-- Reading `count` consecutive samples of the double-mapped region starting at slot
offset `start`: offset `start + j` lands on physical slot `(start + j) % size`.
The default `0` of `getD` is never hit in any use below (all reads are in bounds). -/
def readWrap (data : List Int) (size start count : Nat) : List Int :=
  (List.range count).map (fun j => data.getD ((start + j) % size) 0)

/-- Writing the samples `src` consecutively into the double-mapped region starting at
slot offset `start`: the `j`-th sample lands on physical slot `(start + j) % size`. -/
def writeWrap (size : Nat) (data : List Int) (start : Nat) : List Int → List Int
  | [] => data
  | x :: xs => writeWrap size (data.set (start % size) x) (start + 1) xs

/-- C `ring_buffer_write`: refuses (`-1`, here `none`) if `count` exceeds the free
space; otherwise copies `count` samples of `input` to the end of the available
region (through the double mapping) and grows `available`. -/
def ring_buffer_write (b : ring_buffer_t) (input : List Int) (count : Nat) :
    Option ring_buffer_t :=
  if count = 0 then some b
  else if count > b.size - b.available then none
  else
    let d0 := b.position + b.available
    let destination := if d0 ≥ b.size then d0 - b.size else d0
    some { b with available := b.available + count,
                  data := writeWrap b.size b.data destination (input.take count) }

/-- C `ring_buffer_read`: returns the start of the data if `count` samples are
available (the caller then reads `count` contiguous samples through the double
mapping); does not remove anything. -/
def ring_buffer_read (b : ring_buffer_t) (count : Nat) : Option (List Int) :=
  if count > b.available then none
  else some (readWrap b.data b.size b.position count)

/-- C `ring_buffer_pop`: removes `count` processed samples from the front, advancing
`position` (with the single wraparound subtraction of the C code). -/
def ring_buffer_pop (b : ring_buffer_t) (count : Nat) : Option ring_buffer_t :=
  if count > b.processed then none
  else
    let p0 := b.position + count
    some { b with position := if p0 ≥ b.size then p0 - b.size else p0,
                  available := b.available - count,
                  processed := b.processed - count }

/-- C `ring_buffer_mark_processed`. -/
def ring_buffer_mark_processed (b : ring_buffer_t) (count : Nat) :
    Option ring_buffer_t :=
  if count > b.available - b.processed then none
  else some { b with processed := b.processed + count }

/-- C `ring_buffer_get_free`. -/
def ring_buffer_get_free (b : ring_buffer_t) : Nat := b.size - b.available

/-- C `ring_buffer_get_start_unprocessed` (slot offset of the returned pointer,
with the C code's single wraparound subtraction). -/
def ring_buffer_get_start_unprocessed (b : ring_buffer_t) : Nat :=
  let r := b.position + b.processed
  if r ≥ b.size then r - b.size else r

/-- C `ring_buffer_get_unprocessed`. -/
def ring_buffer_get_unprocessed (b : ring_buffer_t) : Nat :=
  b.available - b.processed

/-- C `create_ring_buffer`, after its mmap plumbing succeeds: `ftruncate` zero-fills
the backing file, so every slot starts as `0`. -/
def create_ring_buffer (size : Nat) : ring_buffer_t :=
  { data := List.replicate size 0, size := size,
    available := 0, processed := 0, position := 0 }

/-- Exact model of the C `double gain` (see the header comment): an unreduced
fraction.  The program only ever builds `⟨1, 1⟩` (unity) and
`⟨threshold, abs maxSample⟩`. -/
structure gain_t where
  num : Int
  den : Int
deriving Repr, DecidableEq

/-- Rational value of a gain (used only in statements, never in runs). -/
def gain_t.toRat (g : gain_t) : ℚ := (g.num : ℚ) / (g.den : ℚ)

/-- The unity gain `1.0` set by `start` and by non-overflowing slices. -/
def gain_one : gain_t := ⟨1, 1⟩

/-- C `*index = (double)(*index) * gain`: exact product followed by the C double→int
conversion, which truncates toward zero (`Int.tdiv`). -/
def scale_sample (x : Int) (g : gain_t) : Int := Int.tdiv (x * g.num) g.den

/-- C `limiter_t` (without the buffer pointer, which is passed separately below,
mirroring the code's `process_our_buffer(buffer, l)` convention). -/
structure limiter_t where
  threshold : Int
  gain : gain_t
  actions : Nat
  slices : Nat
deriving Repr, DecidableEq

/-- Loop of C `find_next_zero_crossing`, specialised to `NUMBER_OF_CHANNELS = 2`
(the inner "other channels" check of the source inspects exactly the one sample at
`zero_crossing + 1`).  `off` is the offset of the C `zero_crossing` pointer from
`ibuf` and equals `i - 2` throughout; `bound` is `size / NUMBER_OF_CHANNELS`.
The fuel dominates the iteration count whenever `fuel ≥ bound`. -/
def fzc_go (ibuf : List Int) (bound : Nat) : Nat → Nat → Option Nat
  | _, 0 => none
  | off, fuel + 1 =>
    if off + NUMBER_OF_CHANNELS < bound then
      if ibuf.getD off 0 ≤ 0 ∧ 0 < ibuf.getD (off + NUMBER_OF_CHANNELS) 0 then
        if MAX_ZERO_CROSSING_VALUE < |ibuf.getD (off + 1) 0| then
          fzc_go ibuf bound (off + NUMBER_OF_CHANNELS) fuel
        else some (off + NUMBER_OF_CHANNELS)
      else fzc_go ibuf bound (off + NUMBER_OF_CHANNELS) fuel
    else none

/-- C `find_next_zero_crossing` on the region `ibuf` of length `size` (in samples):
returns the sample offset of the returned pointer from `ibuf`, or `none` for
`NULL`. -/
def find_next_zero_crossing (ibuf : List Int) (size : Nat) : Option Nat :=
  if size = 0 then none
  else fzc_go ibuf (size / NUMBER_OF_CHANNELS) 0 (size / NUMBER_OF_CHANNELS)

/-- Loop of C `find_max_overflow`: `idx` is the offset of the C `overflow` pointer,
`max` carries the best candidate so far as (offset, `abs` value) — the C keeps the
pointer `max` and later uses only `abs(*max)`, which is the second component —
and `max_value` is the running maximum (initially `0`). -/
def fmo_go : List Int → Int → Nat → Option (Nat × Int) → Int → Option (Nat × Int)
  | [], _, _, max, _ => max
  | x :: rest, limit, idx, max, max_value =>
    if limit < |x| ∧ max_value < |x| then
      fmo_go rest limit (idx + 1) (some (idx, |x|)) |x|
    else
      fmo_go rest limit (idx + 1) max max_value

/-- C `find_max_overflow` over a sample region (the C `[ibuf, end)` span). -/
def find_max_overflow (ibuf : List Int) (limit : Int) : Option (Nat × Int) :=
  fmo_go ibuf limit 0 none 0

/-- Body of one iteration of `process_our_buffer`'s while-loop, acting on the slice
contents: if `find_max_overflow` finds a peak of magnitude `v`, the gain becomes
`threshold / v`, `actions` is bumped, and every sample of the slice is scaled by
that one gain; otherwise the gain resets to unity and the slice data is untouched. -/
def limit_slice (l : limiter_t) (slice : List Int) : List Int × limiter_t :=
  match find_max_overflow slice l.threshold with
  | some (_, v) =>
      let g : gain_t := ⟨l.threshold, v⟩
      (slice.map (fun x => scale_sample x g),
       { l with gain := g, actions := l.actions + 1 })
  | none => (slice, { l with gain := gain_one })

/-- One iteration of the while-loop body of C `process_our_buffer`, given the
offset `n` of the zero crossing that was just found: bump `slices`, limit the
slice `[start_unprocessed, zero_cross)` (the scaled samples are written back only
when a peak was found, as in the C), and mark the slice processed — the C code
ignores the return value of `ring_buffer_mark_processed`, hence the `getD`. -/
def pob_iter (b : ring_buffer_t) (l : limiter_t) (n : Nat) :
    ring_buffer_t × limiter_t :=
  let su := ring_buffer_get_start_unprocessed b
  let w := readWrap b.data b.size su (ring_buffer_get_unprocessed b)
  let l1 : limiter_t := { l with slices := l.slices + 1 }
  let r := limit_slice l1 (w.take n)
  let b1 : ring_buffer_t :=
    if (find_max_overflow (w.take n) l1.threshold).isSome then
      { b with data := writeWrap b.size b.data su r.1 }
    else b
  ((ring_buffer_mark_processed b1 n).getD b1, r.2)

/-- Loop of C `process_our_buffer`: find the next zero crossing of the unprocessed
region and run `pob_iter` until no crossing is found.  The fuel dominates the
iteration count whenever `fuel ≥ ring_buffer_get_unprocessed b`, because every
found crossing offset is at least `2` and gets marked processed. -/
def pob_go : Nat → ring_buffer_t → limiter_t → ring_buffer_t × limiter_t
  | 0, b, l => (b, l)
  | fuel + 1, b, l =>
    let su := ring_buffer_get_start_unprocessed b
    let ulen := ring_buffer_get_unprocessed b
    let w := readWrap b.data b.size su ulen
    match find_next_zero_crossing w ulen with
    | none => (b, l)
    | some n => pob_go fuel (pob_iter b l n).1 (pob_iter b l n).2

/-- C `process_our_buffer`. -/
def process_our_buffer (b : ring_buffer_t) (l : limiter_t) :
    ring_buffer_t × limiter_t :=
  pob_go (ring_buffer_get_unprocessed b) b l

/-- C `flow`.  `ibuf` models the input pointer together with its entry count
`*isamp = ibuf.length`; `osamp` is the entry value of `*osamp`.  The result is
`(buffer, limiter, obuf, *isamp exit value, *osamp exit value)`; `none` models the
`SOX_EOF` of the "Can't save input data, buffer full" branch. -/
def flow (b : ring_buffer_t) (l : limiter_t) (ibuf : List Int) (osamp : Nat) :
    Option (ring_buffer_t × limiter_t × List Int × Nat × Nat) :=
  let step1 : ring_buffer_t × List Int × Nat :=
    if 0 < b.processed then
      let odone := min b.processed osamp
      if 0 < odone then
        ((ring_buffer_pop b odone).getD b, (ring_buffer_read b odone).getD [], odone)
      else (b, [], 0)
    else (b, [], 0)
  let b1 := step1.1
  let idone := min (ring_buffer_get_free b1) ibuf.length
  match ring_buffer_write b1 ibuf idone with
  | none => none
  | some b2 =>
      let bl := process_our_buffer b2 l
      some (bl.1, bl.2, step1.2.1, idone, step1.2.2)

/-- The "process remaining data using current gain" step of C `drain`: scales
`available` many samples starting from the *unprocessed* start by the current
gain (this count is the C code's, faithfully: it overruns the unprocessed region
by `processed` samples through the double mapping), then calls
`ring_buffer_mark_processed` with `available`, ignoring its result (the C code
discards the return value, hence the `getD`). -/
def drain_scale (b : ring_buffer_t) (g : gain_t) : ring_buffer_t :=
  let su := ring_buffer_get_start_unprocessed b
  let w := readWrap b.data b.size su b.available
  let b' : ring_buffer_t :=
    { b with data := writeWrap b.size b.data su (w.map (fun x => scale_sample x g)) }
  (ring_buffer_mark_processed b' b'.available).getD b'

/-- C `drain`.  It first runs `process_our_buffer`, then — when anything is
available — runs `drain_scale` with the current gain; finally it copies out up
to `osamp` processed samples.  Returns
`(buffer, limiter, obuf, *osamp exit value)`; the C function always returns
`SOX_SUCCESS`. -/
def drain (b : ring_buffer_t) (l : limiter_t) (osamp : Nat) :
    ring_buffer_t × limiter_t × List Int × Nat :=
  let bl := process_our_buffer b l
  let b1 := bl.1
  let l1 := bl.2
  let b2 := if 0 < b1.available then drain_scale b1 l1.gain else b1
  if 0 < b2.processed then
    let odone := min b2.processed osamp
    let out := if 0 < odone then (ring_buffer_read b2 odone).getD [] else []
    ((ring_buffer_pop b2 odone).getD b2, l1, out, odone)
  else (b2, l1, [], 0)

/-- C `getopts`, parsing and range-checking part.  The single command-line argument
is modelled post-`sscanf` as `Option ℚ` (`none` = parse failure); the result is
whether configuration succeeds (`SOX_SUCCESS`). -/
def getopts_accepts (arg : Option ℚ) : Bool :=
  match arg with
  | none => false
  | some threshold => if 0 < threshold ∨ threshold < -40 then false else true

/-- C macro `DB_CO(g) = ((g) > -90.0f ? powf(10.0f, (g) * 0.05f) : 0.0f)`, with
the exact real power in place of the float `powf`.  This idealisation is
conservative for every claim below: `powf(10, g * 0.05f)` is exactly `1` at
`g = 0` (C Annex F, `pow(x, ±0) = 1`), matching the exact power there, and for
`-40 ≤ g ≤ 0` both the float result and the exact power lie in `(0, 1]` (the
exact value is in `(0, 1]` and round-to-nearest cannot carry a value `≤ 1` above
the representable `1.0f`). -/
noncomputable def DB_CO (g : ℚ) : ℝ :=
  if -90 < (g : ℝ) then (10 : ℝ) ^ ((g : ℝ) * 0.05) else 0

/-- The float operand that `SOX_SAMPLE_MAX` becomes in
`DB_CO(threshold) * SOX_SAMPLE_MAX`: the usual arithmetic conversions turn the
`int` `2147483647` into a `float`, and the nearest float32 is exactly
`2^31 = 2147483648` (not `SOX_SAMPLE_MAX` itself, which is not representable). -/
noncomputable def SOX_SAMPLE_MAX_AS_FLOAT : ℝ := 2147483648

/-- The C conversion of a floating value to `sox_sample_t` (int32): the value is
truncated toward zero; when the truncated value does not fit in int32 the
conversion is undefined behavior (C11 6.3.1.4p1), modelled as `none`. -/
noncomputable def sox_sample_of_real (x : ℝ) : Option Int :=
  let t : Int := if 0 ≤ x then ⌊x⌋ else -⌊-x⌋
  if -2147483648 ≤ t ∧ t ≤ 2147483647 then some t else none

/-- The real value whose int32 conversion `getopts` stores on success:
`l->threshold = DB_CO(threshold) * SOX_SAMPLE_MAX`, with the int operand
converted to float (`SOX_SAMPLE_MAX_AS_FLOAT = 2^31`; see `DB_CO` for the `powf`
idealisation, which is exact at `0` dB and conservative on `[-40, 0]`). -/
noncomputable def getopts_product (db : ℚ) : ℝ :=
  DB_CO db * SOX_SAMPLE_MAX_AS_FLOAT

/-- The `sox_sample_t` threshold stored by `getopts`: `none` when the conversion
overflows int32 (undefined behavior — on mainstream targets the stored value is
`INT_MIN`, which is not in `(0, SOX_SAMPLE_MAX]` either). -/
noncomputable def getopts_stored (db : ℚ) : Option Int :=
  sox_sample_of_real (getopts_product db)

/-- Buffer invariant maintained by the engine: physical array length is the
capacity, the position pointer is in range, and `processed ≤ available ≤ size`. -/
def rbInv (b : ring_buffer_t) : Prop :=
  b.data.length = b.size ∧ 0 < b.size ∧ b.position < b.size ∧
    b.processed ≤ b.available ∧ b.available ≤ b.size

instance (b : ring_buffer_t) : Decidable (rbInv b) := by
  unfold rbInv; infer_instance

/-- Driver: `k` successive `drain` calls, concatenating their outputs (this is how
the host framework drains an effect at end of input). -/
def drainN : Nat → ring_buffer_t → limiter_t → Nat → ring_buffer_t × limiter_t × List Int
  | 0, b, l, _ => (b, l, [])
  | k + 1, b, l, osamp =>
      let r := drain b l osamp
      let rest := drainN k r.1 r.2.1 osamp
      (rest.1, rest.2.1, r.2.2.1 ++ rest.2.2)

/-- Driver: feed a list of input chunks through successive `flow` calls,
concatenating their outputs. -/
def flowChunks : List (List Int) → ring_buffer_t → limiter_t → Nat →
    Option (ring_buffer_t × limiter_t × List Int)
  | [], b, l, _ => some (b, l, [])
  | c :: cs, b, l, osamp =>
      match flow b l c osamp with
      | none => none
      | some r =>
          match flowChunks cs r.1 r.2.1 osamp with
          | none => none
          | some rest => some (rest.1, rest.2.1, r.2.2.1 ++ rest.2.2)

/-- Driver: a whole session — feed the chunks, then drain `k` times — returning
every sample the effect emitted, in order. -/
def runSession (chunks : List (List Int)) (b : ring_buffer_t) (l : limiter_t)
    (osamp k : Nat) : Option (List Int) :=
  match flowChunks chunks b l osamp with
  | none => none
  | some r => some (r.2.2 ++ (drainN k r.1 r.2.1 osamp).2.2)

/-- Fresh limiter state as `start` initialises it (gain `1.0`, counters zero),
with a given already-configured linear threshold. -/
def start_limiter (threshold : Int) : limiter_t :=
  { threshold := threshold, gain := gain_one, actions := 0, slices := 0 }

/-- A genuine (non-fake) zero crossing between frames `j` and `j+1` of a stereo
region, exactly as the code tests it: the reference (left) channel is `≤ 0` at
frame `j` and `> 0` at frame `j+1`, and the non-reference channel that the code
examines (the right channel of frame `j`, sample offset `2*j + 1`) is within the
`MAX_ZERO_CROSSING_VALUE` tolerance. -/
def crossOK (ibuf : List Int) (j : Nat) : Prop :=
  ibuf.getD (2 * j) 0 ≤ 0 ∧ 0 < ibuf.getD (2 * j + 2) 0 ∧
    |ibuf.getD (2 * j + 1) 0| ≤ MAX_ZERO_CROSSING_VALUE

instance (ibuf : List Int) (j : Nat) : Decidable (crossOK ibuf j) := by
  unfold crossOK; infer_instance

/-- Ten samples (five stereo frames) used in the concrete runs below: one
overflowing slice `[-1000000, 0]` bounded by the crossing into frame 1, followed
by a tail in which the code finds no further crossing. -/
def demo10 : List Int := [-1000000, 0, 1000000, 0, -1, 0, 1, 0, -1, 0]

/-- A lookahead buffer of exactly the size of `demo10`. -/
def demoBuf10 : ring_buffer_t := create_ring_buffer 10

/-- Limiter configured with linear threshold `500000` (≈ -72.66 dB of full scale;
the precise dB origin is irrelevant to the engine claims). -/
def demoLim : limiter_t := start_limiter 500000

/-- Twelve samples (six stereo frames): a first *clean* slice `[-1000, 0]` (no
overflow), a second overflowing slice `[1000000, 0, -1000000, 0]`, and a tail. -/
def demo12 : List Int := [-1000, 0, 1000000, 0, -1000000, 0, 1000, 0, -1, 0, -1, 0]

/-- A lookahead buffer of exactly the size of `demo12`. -/
def demoBuf12 : ring_buffer_t := create_ring_buffer 12

/-! ### Basic arithmetic and buffer-operation lemmas -/

theorem wrapOnce_eq_mod (a size : Nat) (h1 : a < 2 * size) :
    (if a ≥ size then a - size else a) = a % size := by
  rcases Nat.lt_or_ge a size with h | h
  · rw [if_neg (by omega), Nat.mod_eq_of_lt h]
  · rw [if_pos h, Nat.mod_eq_sub_mod h, Nat.mod_eq_of_lt (by omega)]

theorem scale_sample_one (x : Int) : scale_sample x gain_one = x := by
  simp [scale_sample, gain_one]

theorem writeWrap_length (size : Nat) (src : List Int) :
    ∀ (data : List Int) (start : Nat),
      (writeWrap size data start src).length = data.length := by
  induction src with
  | nil => intro data start; rfl
  | cons x xs ih =>
      intro data start
      simp only [writeWrap]
      rw [ih, List.length_set]

theorem ring_buffer_write_none_iff (b : ring_buffer_t) (input : List Int)
    (count : Nat) :
    ring_buffer_write b input count = none ↔ b.size - b.available < count := by
  unfold ring_buffer_write
  split_ifs with h1 h2
  · exact iff_of_false (by simp) (by omega)
  · exact iff_of_true rfl (by omega)
  · exact iff_of_false (by simp) (by omega)

theorem ring_buffer_write_spec (b b' : ring_buffer_t) (input : List Int)
    (count : Nat) (h : ring_buffer_write b input count = some b') :
    count ≤ b.size - b.available ∧ b'.available = b.available + count ∧
      b'.processed = b.processed ∧ b'.position = b.position ∧ b'.size = b.size ∧
      b'.data.length = b.data.length := by
  unfold ring_buffer_write at h
  split_ifs at h with h1 h2
  · cases h
    subst h1
    exact ⟨Nat.zero_le _, rfl, rfl, rfl, rfl, rfl⟩
  · cases h
    exact ⟨by omega, rfl, rfl, rfl, rfl, writeWrap_length ..⟩

theorem ring_buffer_mark_processed_none_iff (b : ring_buffer_t) (count : Nat) :
    ring_buffer_mark_processed b count = none ↔
      b.available - b.processed < count := by
  unfold ring_buffer_mark_processed
  split_ifs with h1
  · exact iff_of_true rfl (by omega)
  · exact iff_of_false (by simp) (by omega)

theorem ring_buffer_mark_processed_spec (b b' : ring_buffer_t) (count : Nat)
    (h : ring_buffer_mark_processed b count = some b') :
    count ≤ b.available - b.processed ∧ b'.processed = b.processed + count ∧
      b'.available = b.available ∧ b'.position = b.position ∧ b'.size = b.size ∧
      b'.data = b.data := by
  unfold ring_buffer_mark_processed at h
  split_ifs at h with h1
  cases h
  exact ⟨by omega, rfl, rfl, rfl, rfl, rfl⟩

theorem ring_buffer_pop_none_iff (b : ring_buffer_t) (count : Nat) :
    ring_buffer_pop b count = none ↔ b.processed < count := by
  unfold ring_buffer_pop
  split_ifs with h1
  · exact iff_of_true rfl (by omega)
  · exact iff_of_false (by simp) (by omega)

theorem ring_buffer_pop_spec (b b' : ring_buffer_t) (count : Nat)
    (h : ring_buffer_pop b count = some b') :
    count ≤ b.processed ∧ b'.available = b.available - count ∧
      b'.processed = b.processed - count ∧ b'.size = b.size ∧ b'.data = b.data ∧
      b'.position =
        if b.position + count ≥ b.size then b.position + count - b.size
        else b.position + count := by
  unfold ring_buffer_pop at h
  split_ifs at h with h1
  cases h
  exact ⟨by omega, rfl, rfl, rfl, rfl, rfl⟩

theorem ring_buffer_read_eq (b : ring_buffer_t) (count : Nat)
    (h : count ≤ b.available) :
    ring_buffer_read b count = some (readWrap b.data b.size b.position count) := by
  unfold ring_buffer_read
  rw [if_neg (by omega)]

/-! ### Characterization of the zero-crossing scan -/

theorem fzc_go_some_iff (ibuf : List Int) (bound : Nat) :
    ∀ (fuel a n : Nat), bound ≤ 2 * a + 2 + 2 * fuel →
      (fzc_go ibuf bound (2 * a) fuel = some n ↔
        ∃ j, a ≤ j ∧ n = 2 * j + 2 ∧ 2 * j + 2 < bound ∧ crossOK ibuf j ∧
          ∀ j', a ≤ j' → j' < j → ¬ crossOK ibuf j') := by
  intro fuel
  induction fuel with
  | zero =>
      intro a n hb
      simp only [fzc_go]
      constructor
      · intro h; cases h
      · rintro ⟨j, haj, rfl, hlt, -, -⟩
        omega
  | succ fuel ih =>
      intro a n hb
      simp only [fzc_go, NUMBER_OF_CHANNELS]
      by_cases hlt : 2 * a + 2 < bound
      · rw [if_pos hlt]
        by_cases hc : ibuf.getD (2 * a) 0 ≤ 0 ∧ 0 < ibuf.getD (2 * a + 2) 0
        · rw [if_pos hc]
          by_cases hf : MAX_ZERO_CROSSING_VALUE < |ibuf.getD (2 * a + 1) 0|
          · rw [if_pos hf]
            have hnca : ¬ crossOK ibuf a := by
              unfold crossOK; intro hca; exact absurd hf (not_lt.mpr hca.2.2)
            rw [show 2 * a + 2 = 2 * (a + 1) by ring]
            rw [ih (a + 1) n (by omega)]
            constructor
            · rintro ⟨j, haj, rfl, h1, h2, h3⟩
              refine ⟨j, by omega, rfl, h1, h2, ?_⟩
              intro j' hj'1 hj'2
              rcases Nat.eq_or_lt_of_le hj'1 with h | h
              · rw [← h]; exact hnca
              · exact h3 j' h hj'2
            · rintro ⟨j, haj, rfl, h1, h2, h3⟩
              have hja : a ≠ j := by rintro rfl; exact hnca h2
              exact ⟨j, by omega, rfl, h1, h2, fun j' hj'1 hj'2 => h3 j' (by omega) hj'2⟩
          · rw [if_neg hf]
            have hca : crossOK ibuf a := ⟨hc.1, hc.2, not_lt.mp hf⟩
            constructor
            · intro h
              cases h
              exact ⟨a, le_refl a, rfl, hlt, hca, fun j' h1 h2 => absurd h1 (by omega)⟩
            · rintro ⟨j, haj, rfl, h1, h2, h3⟩
              rcases Nat.eq_or_lt_of_le haj with h | h
              · rw [h]
              · exact absurd hca (h3 a (le_refl a) h)
        · rw [if_neg hc]
          have hnca : ¬ crossOK ibuf a := by
            unfold crossOK; intro hca; exact hc ⟨hca.1, hca.2.1⟩
          rw [show 2 * a + 2 = 2 * (a + 1) by ring]
          rw [ih (a + 1) n (by omega)]
          constructor
          · rintro ⟨j, haj, rfl, h1, h2, h3⟩
            refine ⟨j, by omega, rfl, h1, h2, ?_⟩
            intro j' hj'1 hj'2
            rcases Nat.eq_or_lt_of_le hj'1 with h | h
            · rw [← h]; exact hnca
            · exact h3 j' h hj'2
          · rintro ⟨j, haj, rfl, h1, h2, h3⟩
            have hja : a ≠ j := by rintro rfl; exact hnca h2
            exact ⟨j, by omega, rfl, h1, h2, fun j' hj'1 hj'2 => h3 j' (by omega) hj'2⟩
      · rw [if_neg hlt]
        constructor
        · intro h; cases h
        · rintro ⟨j, haj, rfl, h1, -, -⟩
          omega

theorem fzc_go_none_iff (ibuf : List Int) (bound : Nat) :
    ∀ (fuel a : Nat), bound ≤ 2 * a + 2 + 2 * fuel →
      (fzc_go ibuf bound (2 * a) fuel = none ↔
        ∀ j, a ≤ j → 2 * j + 2 < bound → ¬ crossOK ibuf j) := by
  intro fuel
  induction fuel with
  | zero =>
      intro a hb
      simp only [fzc_go]
      exact iff_of_true trivial (fun j h1 h2 => by omega)
  | succ fuel ih =>
      intro a hb
      simp only [fzc_go, NUMBER_OF_CHANNELS]
      by_cases hlt : 2 * a + 2 < bound
      · rw [if_pos hlt]
        by_cases hc : ibuf.getD (2 * a) 0 ≤ 0 ∧ 0 < ibuf.getD (2 * a + 2) 0
        · rw [if_pos hc]
          by_cases hf : MAX_ZERO_CROSSING_VALUE < |ibuf.getD (2 * a + 1) 0|
          · rw [if_pos hf]
            have hnca : ¬ crossOK ibuf a := by
              unfold crossOK; intro hca; exact absurd hf (not_lt.mpr hca.2.2)
            rw [show 2 * a + 2 = 2 * (a + 1) by ring]
            rw [ih (a + 1) (by omega)]
            constructor
            · intro h j h1 h2
              rcases Nat.eq_or_lt_of_le h1 with h' | h'
              · rw [← h']; exact hnca
              · exact h j h' h2
            · intro h j h1 h2
              exact h j (by omega) h2
          · rw [if_neg hf]
            have hca : crossOK ibuf a := ⟨hc.1, hc.2, not_lt.mp hf⟩
            constructor
            · intro h; cases h
            · intro h
              exact absurd hca (h a (le_refl a) hlt)
        · rw [if_neg hc]
          have hnca : ¬ crossOK ibuf a := by
            unfold crossOK; intro hca; exact hc ⟨hca.1, hca.2.1⟩
          rw [show 2 * a + 2 = 2 * (a + 1) by ring]
          rw [ih (a + 1) (by omega)]
          constructor
          · intro h j h1 h2
            rcases Nat.eq_or_lt_of_le h1 with h' | h'
            · rw [← h']; exact hnca
            · exact h j h' h2
          · intro h j h1 h2
            exact h j (by omega) h2
      · rw [if_neg hlt]
        exact iff_of_true rfl (fun j h1 h2 => by omega)

theorem find_next_zero_crossing_some_iff (ibuf : List Int) (size n : Nat) :
    find_next_zero_crossing ibuf size = some n ↔
      ∃ j, n = 2 * j + 2 ∧ 2 * j + 2 < size / 2 ∧ crossOK ibuf j ∧
        ∀ j' < j, ¬ crossOK ibuf j' := by
  unfold find_next_zero_crossing
  split_ifs with h0
  · subst h0
    constructor
    · intro h; cases h
    · rintro ⟨j, rfl, h1, -, -⟩
      omega
  · have h := fzc_go_some_iff ibuf (size / NUMBER_OF_CHANNELS)
      (size / NUMBER_OF_CHANNELS) 0 n (by omega)
    rw [show 2 * 0 = 0 by ring] at h
    rw [h]
    simp only [NUMBER_OF_CHANNELS]
    constructor
    · rintro ⟨j, -, rfl, h1, h2, h3⟩
      exact ⟨j, rfl, h1, h2, fun j' hj' => h3 j' (Nat.zero_le j') hj'⟩
    · rintro ⟨j, rfl, h1, h2, h3⟩
      exact ⟨j, Nat.zero_le j, rfl, h1, h2, fun j' _ hj' => h3 j' hj'⟩

theorem find_next_zero_crossing_none_iff (ibuf : List Int) (size : Nat) :
    find_next_zero_crossing ibuf size = none ↔
      ∀ j, 2 * j + 2 < size / 2 → ¬ crossOK ibuf j := by
  unfold find_next_zero_crossing
  split_ifs with h0
  · subst h0
    exact iff_of_true rfl (fun j h1 => by omega)
  · have h := fzc_go_none_iff ibuf (size / NUMBER_OF_CHANNELS)
      (size / NUMBER_OF_CHANNELS) 0 (by omega)
    rw [show 2 * 0 = 0 by ring] at h
    rw [h]
    simp only [NUMBER_OF_CHANNELS]
    constructor
    · intro h j h2
      exact h j (Nat.zero_le j) h2
    · intro h j _ h2
      exact h j h2

/-! ### Characterization of the peak search -/

theorem fmo_go_bound (limit : Int) :
    ∀ (rest : List Int) (idx : Nat) (best : Option (Nat × Int)) (mv : Int),
      (∀ p, best = some p → p.2 = mv) →
      ∀ i v, fmo_go rest limit idx best mv = some (i, v) →
        mv ≤ v ∧ ∀ x ∈ rest, limit < |x| → |x| ≤ v := by
  intro rest
  induction rest with
  | nil =>
      intro idx best mv hbest i v h
      simp only [fmo_go] at h
      have hv := hbest _ h
      refine ⟨le_of_eq hv.symm, ?_⟩
      intro x hx
      cases hx
  | cons x xs ih =>
      intro idx best mv hbest i v h
      simp only [fmo_go] at h
      by_cases hc : limit < |x| ∧ mv < |x|
      · rw [if_pos hc] at h
        have h2 := ih (idx + 1) (some (idx, |x|)) |x|
          (by rintro p hp; cases hp; rfl) i v h
        refine ⟨by omega, ?_⟩
        intro y hy hly
        rcases List.mem_cons.mp hy with rfl | hy'
        · exact h2.1
        · exact h2.2 y hy' hly
      · rw [if_neg hc] at h
        have h2 := ih (idx + 1) best mv hbest i v h
        refine ⟨h2.1, ?_⟩
        intro y hy hly
        rcases List.mem_cons.mp hy with rfl | hy'
        · have hnm : ¬ mv < |y| := fun h' => hc ⟨hly, h'⟩
          have := h2.1
          omega
        · exact h2.2 y hy' hly

theorem fmo_go_limit (limit : Int) :
    ∀ (rest : List Int) (idx : Nat) (best : Option (Nat × Int)) (mv : Int),
      (∀ i v, best = some (i, v) → limit < v) →
      ∀ i v, fmo_go rest limit idx best mv = some (i, v) → limit < v := by
  intro rest
  induction rest with
  | nil =>
      intro idx best mv hbest i v h
      simp only [fmo_go] at h
      exact hbest i v h
  | cons x xs ih =>
      intro idx best mv hbest i v h
      simp only [fmo_go] at h
      by_cases hc : limit < |x| ∧ mv < |x|
      · rw [if_pos hc] at h
        exact ih (idx + 1) (some (idx, |x|)) |x|
          (by rintro i' v' hp; cases hp; exact hc.1) i v h
      · rw [if_neg hc] at h
        exact ih (idx + 1) best mv hbest i v h

theorem fmo_go_index (limit : Int) (l : List Int) :
    ∀ (rest : List Int) (idx : Nat) (best : Option (Nat × Int)) (mv : Int),
      l.drop idx = rest →
      (∀ i v, best = some (i, v) → i < l.length ∧ v = |l.getD i 0|) →
      ∀ i v, fmo_go rest limit idx best mv = some (i, v) →
        i < l.length ∧ v = |l.getD i 0| := by
  intro rest
  induction rest with
  | nil =>
      intro idx best mv hdrop hbest i v h
      simp only [fmo_go] at h
      exact hbest i v h
  | cons x xs ih =>
      intro idx best mv hdrop hbest i v h
      simp only [fmo_go] at h
      have hlen : idx < l.length := by
        by_contra hge
        rw [List.drop_eq_nil_of_le (by omega)] at hdrop
        cases hdrop
      have hx : l.getD idx 0 = x := by
        have h1 : (l.drop idx)[0]? = some x := by
          rw [hdrop, List.getElem?_cons_zero]
        rw [List.getElem?_drop, Nat.add_zero] at h1
        rw [List.getD_eq_getElem?_getD, h1]
        rfl
      have hdrop' : l.drop (idx + 1) = xs := by
        have : l.drop (idx + 1) = (l.drop idx).drop 1 := by
          rw [List.drop_drop, Nat.add_comm]
        rw [this, hdrop]
        rfl
      by_cases hc : limit < |x| ∧ mv < |x|
      · rw [if_pos hc] at h
        refine ih (idx + 1) (some (idx, |x|)) |x| hdrop' ?_ i v h
        rintro i' v' hp
        cases hp
        exact ⟨hlen, by rw [hx]⟩
      · rw [if_neg hc] at h
        exact ih (idx + 1) best mv hdrop' hbest i v h

theorem fmo_go_min (limit : Int) (l : List Int) :
    ∀ (rest : List Int) (idx : Nat) (best : Option (Nat × Int)) (mv : Int),
      l.drop idx = rest →
      (∀ k < idx, |l.getD k 0| ≤ mv ∨ |l.getD k 0| ≤ limit) →
      (∀ i v, best = some (i, v) → mv = v ∧ ∀ k < i, |l.getD k 0| < v) →
      ∀ i v, fmo_go rest limit idx best mv = some (i, v) →
        ∀ k < i, |l.getD k 0| < v := by
  intro rest
  induction rest with
  | nil =>
      intro idx best mv hdrop hproc hbest i v h
      simp only [fmo_go] at h
      exact (hbest i v h).2
  | cons x xs ih =>
      intro idx best mv hdrop hproc hbest i v h
      simp only [fmo_go] at h
      have hx : l.getD idx 0 = x := by
        have h1 : (l.drop idx)[0]? = some x := by
          rw [hdrop, List.getElem?_cons_zero]
        rw [List.getElem?_drop, Nat.add_zero] at h1
        rw [List.getD_eq_getElem?_getD, h1]
        rfl
      have hdrop' : l.drop (idx + 1) = xs := by
        have h2 : l.drop (idx + 1) = (l.drop idx).drop 1 := by
          rw [List.drop_drop, Nat.add_comm]
        rw [h2, hdrop]
        rfl
      by_cases hc : limit < |x| ∧ mv < |x|
      · rw [if_pos hc] at h
        refine ih (idx + 1) (some (idx, |x|)) |x| hdrop' ?_ ?_ i v h
        · intro k hk
          rcases Nat.lt_succ_iff_lt_or_eq.mp hk with hk' | rfl
          · rcases hproc k hk' with h' | h'
            · exact Or.inl (by omega)
            · exact Or.inr h'
          · exact Or.inl (le_of_eq (by rw [hx]))
        · rintro i' v' hp
          cases hp
          refine ⟨rfl, ?_⟩
          intro k hk
          rcases hproc k hk with h' | h'
          · omega
          · omega
      · rw [if_neg hc] at h
        refine ih (idx + 1) best mv hdrop' ?_ hbest i v h
        intro k hk
        rcases Nat.lt_succ_iff_lt_or_eq.mp hk with hk' | rfl
        · exact hproc k hk'
        · rw [hx]
          rcases not_and_or.mp hc with h' | h'
          · exact Or.inr (not_lt.mp h')
          · exact Or.inl (not_lt.mp h')

theorem fmo_go_some_ne_none (limit : Int) :
    ∀ (rest : List Int) (idx : Nat) (p : Nat × Int) (mv : Int),
      fmo_go rest limit idx (some p) mv ≠ none := by
  intro rest
  induction rest with
  | nil =>
      intro idx p mv h
      simp only [fmo_go] at h
      cases h
  | cons x xs ih =>
      intro idx p mv h
      simp only [fmo_go] at h
      by_cases hc : limit < |x| ∧ mv < |x|
      · rw [if_pos hc] at h
        exact ih (idx + 1) (idx, |x|) |x| h
      · rw [if_neg hc] at h
        exact ih (idx + 1) p mv h

theorem fmo_go_none_iff (limit : Int) :
    ∀ (rest : List Int) (idx : Nat) (mv : Int), mv ≤ limit →
      (fmo_go rest limit idx none mv = none ↔ ∀ x ∈ rest, |x| ≤ limit) := by
  intro rest
  induction rest with
  | nil =>
      intro idx mv hmv
      simp only [fmo_go]
      exact iff_of_true trivial (fun x hx => by cases hx)
  | cons x xs ih =>
      intro idx mv hmv
      simp only [fmo_go]
      by_cases hc : limit < |x| ∧ mv < |x|
      · rw [if_pos hc]
        refine iff_of_false (fmo_go_some_ne_none limit xs (idx + 1) (idx, |x|) |x|) ?_
        intro hall
        exact absurd (hall x (List.mem_cons_self x xs)) (not_le.mpr hc.1)
      · rw [if_neg hc]
        have hxle : |x| ≤ limit := by
          rcases not_and_or.mp hc with h' | h'
          · exact not_lt.mp h'
          · exact le_trans (not_lt.mp h') hmv
        rw [ih (idx + 1) mv hmv]
        constructor
        · intro h y hy
          rcases List.mem_cons.mp hy with rfl | hy'
          · exact hxle
          · exact h y hy'
        · intro h y hy
          exact h y (List.mem_cons_of_mem x hy)

theorem find_max_overflow_none_iff (l : List Int) (limit : Int) (h0 : 0 ≤ limit) :
    find_max_overflow l limit = none ↔ ∀ x ∈ l, |x| ≤ limit := by
  unfold find_max_overflow
  exact fmo_go_none_iff limit l 0 0 h0

theorem find_max_overflow_spec (l : List Int) (limit : Int) (i : Nat) (v : Int)
    (h : find_max_overflow l limit = some (i, v)) :
    i < l.length ∧ v = |l.getD i 0| ∧ limit < v ∧
      (∀ x ∈ l, |x| ≤ v) ∧ ∀ k < i, |l.getD k 0| < v := by
  unfold find_max_overflow at h
  have hidx := fmo_go_index limit l l 0 none 0 (by rfl)
    (by rintro i' v' hp; cases hp) i v h
  have hlim := fmo_go_limit limit l 0 none 0 (by rintro i' v' hp; cases hp) i v h
  have hbnd := fmo_go_bound limit l 0 none 0 (by rintro p hp; cases hp) i v h
  have hmin := fmo_go_min limit l l 0 none 0 (by rfl)
    (by intro k hk; omega) (by rintro i' v' hp; cases hp) i v h
  refine ⟨hidx.1, hidx.2, hlim, ?_, hmin⟩
  intro x hx
  by_cases hlx : limit < |x|
  · exact hbnd.2 x hx hlx
  · exact le_trans (not_lt.mp hlx) (le_of_lt hlim)

/-! ### Bookkeeping lemmas for the processing loop and drain -/

theorem limit_slice_threshold (l : limiter_t) (s : List Int) :
    (limit_slice l s).2.threshold = l.threshold := by
  unfold limit_slice
  split <;> rfl

theorem ring_buffer_mark_processed_of_le (b : ring_buffer_t) (count : Nat)
    (h : count ≤ b.available - b.processed) :
    ring_buffer_mark_processed b count =
      some { b with processed := b.processed + count } := by
  unfold ring_buffer_mark_processed
  rw [if_neg (by omega)]

theorem ring_buffer_pop_of_le (b : ring_buffer_t) (count : Nat)
    (h : count ≤ b.processed) :
    ring_buffer_pop b count =
      some { b with
        position :=
          if b.position + count ≥ b.size then b.position + count - b.size
          else b.position + count,
        available := b.available - count,
        processed := b.processed - count } := by
  unfold ring_buffer_pop
  rw [if_neg (by omega)]

theorem mark_getD_book (b : ring_buffer_t) (n : Nat) :
    ((ring_buffer_mark_processed b n).getD b).size = b.size ∧
      ((ring_buffer_mark_processed b n).getD b).position = b.position ∧
      ((ring_buffer_mark_processed b n).getD b).available = b.available ∧
      ((ring_buffer_mark_processed b n).getD b).data = b.data ∧
      b.processed ≤ ((ring_buffer_mark_processed b n).getD b).processed ∧
      ((ring_buffer_mark_processed b n).getD b).processed ≤
        max b.processed b.available := by
  unfold ring_buffer_mark_processed
  split_ifs with h
  · exact ⟨rfl, rfl, rfl, rfl, le_refl _, le_max_left _ _⟩
  · refine ⟨rfl, rfl, rfl, rfl, by simp, ?_⟩
    simp only [Option.getD_some]
    omega

theorem pob_iter_book (b : ring_buffer_t) (l : limiter_t) (n : Nat) :
    (pob_iter b l n).1.size = b.size ∧
      (pob_iter b l n).1.position = b.position ∧
      (pob_iter b l n).1.available = b.available ∧
      (pob_iter b l n).1.data.length = b.data.length ∧
      b.processed ≤ (pob_iter b l n).1.processed ∧
      (pob_iter b l n).1.processed ≤ max b.processed b.available ∧
      (pob_iter b l n).2.threshold = l.threshold := by
  unfold pob_iter
  simp only
  split_ifs with hov
  · set D := writeWrap b.size b.data (ring_buffer_get_start_unprocessed b) (limit_slice { l with slices := l.slices + 1 } ((readWrap b.data b.size (ring_buffer_get_start_unprocessed b) (ring_buffer_get_unprocessed b)).take n)).1 with hD
    have hm := mark_getD_book { b with data := D } n
    refine ⟨hm.1, hm.2.1, hm.2.2.1, ?_, hm.2.2.2.2.1, hm.2.2.2.2.2,
      limit_slice_threshold ..⟩
    rw [hm.2.2.2.1]
    show D.length = b.data.length
    rw [hD]
    exact writeWrap_length ..
  · have hm := mark_getD_book b n
    exact ⟨hm.1, hm.2.1, hm.2.2.1, by rw [hm.2.2.2.1], hm.2.2.2.2.1,
      hm.2.2.2.2.2, limit_slice_threshold ..⟩

theorem pob_go_book (fuel : Nat) :
    ∀ (b : ring_buffer_t) (l : limiter_t),
      (pob_go fuel b l).1.size = b.size ∧
      (pob_go fuel b l).1.position = b.position ∧
      (pob_go fuel b l).1.available = b.available ∧
      (pob_go fuel b l).1.data.length = b.data.length ∧
      b.processed ≤ (pob_go fuel b l).1.processed ∧
      (pob_go fuel b l).1.processed ≤ max b.processed b.available ∧
      (pob_go fuel b l).2.threshold = l.threshold := by
  induction fuel with
  | zero =>
      intro b l
      exact ⟨rfl, rfl, rfl, rfl, le_refl _, le_max_left _ _, rfl⟩
  | succ fuel ih =>
      intro b l
      simp only [pob_go]
      split
      · exact ⟨rfl, rfl, rfl, rfl, le_refl _, le_max_left _ _, rfl⟩
      · rename_i n hfz
        have hit := pob_iter_book b l n
        have hih := ih (pob_iter b l n).1 (pob_iter b l n).2
        refine ⟨by rw [hih.1, hit.1], by rw [hih.2.1, hit.2.1],
          by rw [hih.2.2.1, hit.2.2.1], by rw [hih.2.2.2.1, hit.2.2.2.1],
          le_trans hit.2.2.2.2.1 hih.2.2.2.2.1, ?_, by rw [hih.2.2.2.2.2.2, hit.2.2.2.2.2.2]⟩
        have h1 := hih.2.2.2.2.2.1
        have h2 := hit.2.2.2.2.2.1
        have h3 := hit.2.2.1
        omega

theorem process_our_buffer_book (b : ring_buffer_t) (l : limiter_t) :
    (process_our_buffer b l).1.size = b.size ∧
      (process_our_buffer b l).1.position = b.position ∧
      (process_our_buffer b l).1.available = b.available ∧
      (process_our_buffer b l).1.data.length = b.data.length ∧
      b.processed ≤ (process_our_buffer b l).1.processed ∧
      (process_our_buffer b l).1.processed ≤ max b.processed b.available ∧
      (process_our_buffer b l).2.threshold = l.threshold := by
  unfold process_our_buffer
  exact pob_go_book (ring_buffer_get_unprocessed b) b l

theorem drain_scale_book (c : ring_buffer_t) (g : gain_t)
    (hpa : c.processed ≤ c.available) :
    (drain_scale c g).size = c.size ∧
      (drain_scale c g).position = c.position ∧
      (drain_scale c g).available = c.available ∧
      (drain_scale c g).data.length = c.data.length ∧
      c.processed ≤ (drain_scale c g).processed ∧
      (drain_scale c g).processed ≤ c.available ∧
      (0 < c.available → 0 < (drain_scale c g).processed) := by
  unfold drain_scale
  simp only
  set W := writeWrap c.size c.data (ring_buffer_get_start_unprocessed c)
    ((readWrap c.data c.size (ring_buffer_get_start_unprocessed c)
      c.available).map (fun x => scale_sample x g)) with hW
  have hWlen : W.length = c.data.length := by
    rw [hW]; exact writeWrap_length ..
  rcases Nat.eq_zero_or_pos c.processed with hz | hz
  · rw [ring_buffer_mark_processed_of_le { c with data := W } c.available
      (show c.available ≤ c.available - c.processed by omega)]
    rw [Option.getD_some]
    refine ⟨rfl, rfl, rfl, hWlen, ?_, ?_, fun h => ?_⟩
    · show c.processed ≤ c.processed + c.available
      omega
    · show c.processed + c.available ≤ c.available
      omega
    · show 0 < c.processed + c.available
      omega
  · have hm : ring_buffer_mark_processed { c with data := W } c.available = none := by
      unfold ring_buffer_mark_processed
      rw [if_pos (show c.available > c.available - c.processed by omega)]
    rw [hm, Option.getD_none]
    exact ⟨rfl, rfl, rfl, hWlen, le_refl _, hpa, fun _ => hz⟩

theorem drain_terminal (b : ring_buffer_t) (l : limiter_t) (osamp : Nat)
    (hInv : rbInv b) (h0 : b.available = 0) :
    drain b l osamp = (b, l, [], 0) := by
  obtain ⟨hd, hs, hpos, hpa, has⟩ := hInv
  have hP : process_our_buffer b l = (b, l) := by
    unfold process_our_buffer
    rw [show ring_buffer_get_unprocessed b = 0 by
      unfold ring_buffer_get_unprocessed; omega]
    rfl
  unfold drain
  rw [hP]
  simp only
  rw [if_neg (show ¬ 0 < b.available by omega)]
  rw [if_neg (show ¬ 0 < b.processed by omega)]

theorem drain_progress (b : ring_buffer_t) (l : limiter_t) (osamp : Nat)
    (hInv : rbInv b) (hav : 0 < b.available) (hos : 0 < osamp) :
    (drain b l osamp).1.available < b.available ∧ rbInv (drain b l osamp).1 := by
  obtain ⟨hd, hs, hpos, hpa, has⟩ := hInv
  obtain ⟨hP1, hP2, hP3, hP4, hP5, hP6, hP7⟩ := process_our_buffer_book b l
  unfold drain
  simp only
  set C := (process_our_buffer b l).1 with hC
  have hCpa : C.processed ≤ C.available := by omega
  rw [if_pos (show 0 < C.available by omega)]
  obtain ⟨hD1, hD2, hD3, hD4, hD5, hD6, hD7⟩ :=
    drain_scale_book C (process_our_buffer b l).2.gain hCpa
  set B2 := drain_scale C (process_our_buffer b l).2.gain with hB2
  have hB2p : 0 < B2.processed := hD7 (by omega)
  rw [if_pos hB2p]
  simp only
  have hod : min B2.processed osamp ≤ B2.processed := Nat.min_le_left _ _
  rw [ring_buffer_pop_of_le B2 (min B2.processed osamp) hod, Option.getD_some]
  have hodpos : 0 < min B2.processed osamp := by
    exact Nat.lt_min.mpr ⟨hB2p, hos⟩
  constructor
  · show B2.available - min B2.processed osamp < b.available
    omega
  · refine ⟨?_, ?_, ?_, ?_, ?_⟩
    · show B2.data.length = B2.size
      omega
    · show 0 < B2.size
      omega
    · show (if B2.position + min B2.processed osamp ≥ B2.size then
          B2.position + min B2.processed osamp - B2.size
        else B2.position + min B2.processed osamp) < B2.size
      split_ifs with hwrap
      · omega
      · omega
    · show B2.processed - min B2.processed osamp ≤
        B2.available - min B2.processed osamp
      omega
    · show B2.available - min B2.processed osamp ≤ B2.size
      omega

theorem drainN_reaches_zero (osamp : Nat) (hos : 0 < osamp) :
    ∀ (k : Nat) (b : ring_buffer_t) (l : limiter_t), rbInv b → b.available ≤ k →
      (drainN k b l osamp).1.available = 0 ∧ rbInv (drainN k b l osamp).1 := by
  intro k
  induction k with
  | zero =>
      intro b l hInv hk
      exact ⟨show b.available = 0 by omega, hInv⟩
  | succ k ih =>
      intro b l hInv hk
      simp only [drainN]
      rcases Nat.eq_zero_or_pos b.available with h0 | h0
      · rw [drain_terminal b l osamp hInv h0]
        exact ih b l hInv (by omega)
      · have hp := drain_progress b l osamp hInv h0 hos
        exact ih (drain b l osamp).1 (drain b l osamp).2.1 hp.2 (by omega)

theorem ring_buffer_write_isSome (b : ring_buffer_t) (input : List Int)
    (count : Nat) (h : count ≤ b.size - b.available) :
    ∃ b2, ring_buffer_write b input count = some b2 := by
  unfold ring_buffer_write
  split_ifs with h1 h2
  · exact ⟨b, rfl⟩
  · omega
  · exact ⟨_, rfl⟩

theorem flow_spec (b : ring_buffer_t) (l : limiter_t) (ibuf : List Int)
    (osamp : Nat) (hInv : rbInv b) :
    ∃ b2 : ring_buffer_t,
      flow b l ibuf osamp =
        some ((process_our_buffer b2 l).1, (process_our_buffer b2 l).2,
          readWrap b.data b.size b.position (min b.processed osamp),
          min (b.size - (b.available - min b.processed osamp)) ibuf.length,
          min b.processed osamp) := by
  obtain ⟨hd, hs, hpos, hpa, has⟩ := hInv
  unfold flow
  simp only
  by_cases hp : 0 < b.processed
  · rw [if_pos hp]
    by_cases ho : 0 < min b.processed osamp
    · rw [if_pos ho]
      simp only
      rw [ring_buffer_read_eq b (min b.processed osamp)
        (le_trans (Nat.min_le_left ..) hpa)]
      rw [ring_buffer_pop_of_le b (min b.processed osamp) (Nat.min_le_left ..)]
      simp only [Option.getD_some]
      obtain ⟨b2, hb2⟩ := ring_buffer_write_isSome
        { b with
          position :=
            if b.position + min b.processed osamp ≥ b.size then
              b.position + min b.processed osamp - b.size
            else b.position + min b.processed osamp,
          available := b.available - min b.processed osamp,
          processed := b.processed - min b.processed osamp }
        ibuf
        (min (ring_buffer_get_free
          { b with
            position :=
              if b.position + min b.processed osamp ≥ b.size then
                b.position + min b.processed osamp - b.size
              else b.position + min b.processed osamp,
            available := b.available - min b.processed osamp,
            processed := b.processed - min b.processed osamp }) ibuf.length)
        (Nat.min_le_left ..)
      rw [hb2]
      exact ⟨b2, rfl⟩
    · rw [if_neg ho]
      simp only
      have h0 : min b.processed osamp = 0 := by omega
      rw [h0]
      obtain ⟨b2, hb2⟩ := ring_buffer_write_isSome b ibuf
        (min (ring_buffer_get_free b) ibuf.length) (Nat.min_le_left ..)
      rw [hb2]
      exact ⟨b2, rfl⟩
  · rw [if_neg hp]
    simp only
    have h0 : min b.processed osamp = 0 := by omega
    rw [h0]
    obtain ⟨b2, hb2⟩ := ring_buffer_write_isSome b ibuf
      (min (ring_buffer_get_free b) ibuf.length) (Nat.min_le_left ..)
    rw [hb2]
    exact ⟨b2, rfl⟩

/-! ### Claim theorems -/

/-- C7: every ring-buffer operation preserves the invariant
`0 ≤ processed ≤ available ≤ capacity`; `ring_buffer_write` fails (returning the
error, state unchanged) exactly when the requested count exceeds
`capacity - available` and otherwise increases `available` by `count`;
`ring_buffer_mark_processed` fails exactly when `count` exceeds
`available - processed`; `ring_buffer_pop` fails exactly when `count` exceeds
`processed` and otherwise decrements `available` and `processed` by `count` and
advances the logical start by `count` modulo the capacity. -/
theorem C7_ring_buffer_invariants (b : ring_buffer_t) (input : List Int)
    (count : Nat) (hInv : rbInv b) :
    (ring_buffer_write b input count = none ↔ b.size - b.available < count) ∧
    (∀ b', ring_buffer_write b input count = some b' →
      b'.available = b.available + count ∧ b'.processed = b.processed ∧
      b'.position = b.position ∧ b'.size = b.size ∧ rbInv b') ∧
    (ring_buffer_mark_processed b count = none ↔
      b.available - b.processed < count) ∧
    (∀ b', ring_buffer_mark_processed b count = some b' →
      b'.processed = b.processed + count ∧ b'.available = b.available ∧
      b'.position = b.position ∧ b'.size = b.size ∧ rbInv b') ∧
    (ring_buffer_pop b count = none ↔ b.processed < count) ∧
    (∀ b', ring_buffer_pop b count = some b' →
      b'.available = b.available - count ∧ b'.processed = b.processed - count ∧
      b'.position = (b.position + count) % b.size ∧ b'.size = b.size ∧
      rbInv b') := by
  obtain ⟨hd, hs, hpos, hpa, has⟩ := hInv
  refine ⟨ring_buffer_write_none_iff b input count, ?_,
    ring_buffer_mark_processed_none_iff b count, ?_,
    ring_buffer_pop_none_iff b count, ?_⟩
  · intro b' h
    obtain ⟨h1, h2, h3, h4, h5, h6⟩ := ring_buffer_write_spec b b' input count h
    exact ⟨h2, h3, h4, h5, by omega, by omega, by omega, by omega, by omega⟩
  · intro b' h
    obtain ⟨h1, h2, h3, h4, h5, h6⟩ := ring_buffer_mark_processed_spec b b' count h
    refine ⟨h2, h3, h4, h5, ?_, by omega, by omega, by omega, by omega⟩
    rw [h6]
    omega
  · intro b' h
    obtain ⟨h1, h2, h3, h4, h5, h6⟩ := ring_buffer_pop_spec b b' count h
    have hwrap : b'.position = (b.position + count) % b.size := by
      rw [h6]
      exact wrapOnce_eq_mod (b.position + count) b.size (by omega)
    refine ⟨h2, h3, hwrap, h4, ?_, by omega, ?_, by omega, by omega⟩
    · rw [h5]
      omega
    · rw [hwrap, h4]
      exact Nat.mod_lt _ (by omega)

/-- Witness for C7 at a concrete buffer state. -/
theorem C7_witness :
    rbInv { data := [1, 2, 3, 4], size := 4, available := 3, processed := 1, position := 2 } ∧
    (ring_buffer_pop { data := [1, 2, 3, 4], size := 4, available := 3, processed := 1, position := 2 } 2 = none ↔
      ({ data := [1, 2, 3, 4], size := 4, available := 3, processed := 1, position := 2 } : ring_buffer_t).processed < 2) :=
  ⟨by decide,
   (C7_ring_buffer_invariants { data := [1, 2, 3, 4], size := 4, available := 3, processed := 1, position := 2 }
     [9, 9] 2 (by decide)).2.2.2.2.1⟩

/-- C6: once all buffered data has been emitted (`available = 0`), `drain`
produces `0` samples and leaves the state exactly unchanged (the idempotent
terminal state — the C code signals completion to the host by producing `0`);
and starting from any invariant-respecting state, at most `available` many
`drain` calls with positive output capacity empty the buffer. -/
theorem C6_drain_finality (b : ring_buffer_t) (l : limiter_t) (osamp : Nat)
    (hInv : rbInv b) (hos : 0 < osamp) :
    (drainN b.available b l osamp).1.available = 0 ∧
    (∀ b' l', rbInv b' → b'.available = 0 → drain b' l' osamp = (b', l', [], 0)) := by
  refine ⟨(drainN_reaches_zero osamp hos b.available b l hInv (le_refl _)).1, ?_⟩
  intro b' l' h1 h2
  exact drain_terminal b' l' osamp h1 h2

/-- Witness for C6 at a concrete state (a freshly created 4-slot buffer). -/
theorem C6_witness :
    rbInv (create_ring_buffer 4) ∧ 0 < 1 ∧
    (drainN (create_ring_buffer 4).available (create_ring_buffer 4) demoLim 1).1.available
      = 0 :=
  ⟨by decide, by decide,
   (C6_drain_finality (create_ring_buffer 4) demoLim 1 (by decide) (by decide)).1⟩

/-- C9: `flow` always succeeds (the fatal internal-error branch guarding the ring
write is unreachable), and the number of consumed input samples is exactly
`min(freeSpace, inputLen)`, where `freeSpace` is the free space after the initial
copy-out of processed samples — a full buffer therefore yields backpressure
(`consumed < inputLen`), never an error. -/
theorem C9_flow_backpressure (b : ring_buffer_t) (l : limiter_t)
    (ibuf : List Int) (osamp : Nat) (hInv : rbInv b) :
    ∃ b' l' obuf odone,
      flow b l ibuf osamp = some (b', l', obuf,
        min (b.size - (b.available - min b.processed osamp)) ibuf.length,
        odone) := by
  obtain ⟨b2, hb2⟩ := flow_spec b l ibuf osamp hInv
  exact ⟨_, _, _, _, hb2⟩

/-- Witness for C9 on a concrete full session state. -/
theorem C9_witness :
    rbInv demoBuf10 ∧
    ∃ b' l' obuf odone,
      flow demoBuf10 demoLim demo10 10 = some (b', l', obuf,
        min (demoBuf10.size - (demoBuf10.available -
          min demoBuf10.processed 10)) demo10.length,
        odone) :=
  ⟨by decide, C9_flow_backpressure demoBuf10 demoLim demo10 10 (by decide)⟩

/-- C10: the samples a `flow` call emits are exactly a prefix of the data that was
already buffered *and marked processed* before the call began (`min processed
osamp` many samples read from the buffer's logical front in the entry state), and
they do not depend on the input passed to that same call — output is copied out
before the new input is written and before slicing runs. -/
theorem C10_output_precedes_input (b : ring_buffer_t) (l : limiter_t)
    (ibuf : List Int) (osamp : Nat) (hInv : rbInv b) :
    (∃ b' l' idone,
      flow b l ibuf osamp = some (b', l',
        readWrap b.data b.size b.position (min b.processed osamp), idone,
        min b.processed osamp)) ∧
    min b.processed osamp ≤ b.processed ∧
    (∀ ibuf', Option.map (fun r => r.2.2.1) (flow b l ibuf osamp) =
        Option.map (fun r => r.2.2.1) (flow b l ibuf' osamp)) := by
  obtain ⟨b2, hb2⟩ := flow_spec b l ibuf osamp hInv
  refine ⟨⟨_, _, _, hb2⟩, Nat.min_le_left .., ?_⟩
  intro ibuf'
  obtain ⟨c2, hc2⟩ := flow_spec b l ibuf' osamp hInv
  rw [hb2, hc2]
  rfl

/-- Witness for C10 on a concrete state with pending processed data. -/
theorem C10_witness :
    rbInv { data := [7, 8, 9, 10], size := 4, available := 3, processed := 2, position := 0 } ∧
    ∃ b' l' idone,
      flow { data := [7, 8, 9, 10], size := 4, available := 3, processed := 2, position := 0 }
          demoLim [5, 5] 4 =
        some (b', l', readWrap [7, 8, 9, 10] 4 0 (min 2 4), idone, min 2 4) :=
  ⟨by decide,
   (C10_output_precedes_input { data := [7, 8, 9, 10], size := 4, available := 3, processed := 2, position := 0 }
     demoLim [5, 5] 4 (by decide)).1⟩

theorem limit_slice_some (l : limiter_t) (s : List Int) (i : Nat) (v : Int)
    (h : find_max_overflow s l.threshold = some (i, v)) :
    limit_slice l s = (s.map (fun x => scale_sample x ⟨l.threshold, v⟩),
      { l with gain := ⟨l.threshold, v⟩, actions := l.actions + 1 }) := by
  unfold limit_slice
  rw [h]

theorem limit_slice_none (l : limiter_t) (s : List Int)
    (h : find_max_overflow s l.threshold = none) :
    limit_slice l s = (s, { l with gain := gain_one }) := by
  unfold limit_slice
  rw [h]

theorem map_scale_one (s : List Int) :
    s.map (fun x => scale_sample x gain_one) = s := by
  simp [scale_sample_one]

/-- C4: `find_max_overflow` returns the position of the sample with the largest
absolute value strictly greater than the threshold — `none` exactly when no sample
overflows; when an overflow of magnitude `v` is found, the per-slice processing
applies the single gain factor `threshold / v` (strictly less than `1` as a
rational) uniformly to every sample of the slice, and when none is found the gain
resets to unity and the slice is untouched: in either case one single gain factor
maps the whole slice (slice atomicity). -/
theorem C4_peak_search_and_slice_atomicity (l : limiter_t) (s : List Int)
    (ht : 0 < l.threshold) :
    (find_max_overflow s l.threshold = none ↔ ∀ x ∈ s, |x| ≤ l.threshold) ∧
    (∀ i v, find_max_overflow s l.threshold = some (i, v) →
      i < s.length ∧ v = |s.getD i 0| ∧ l.threshold < v ∧ (∀ x ∈ s, |x| ≤ v) ∧
      (∀ k < i, |s.getD k 0| < v) ∧
      (limit_slice l s).1 = s.map (fun x => scale_sample x ⟨l.threshold, v⟩) ∧
      (limit_slice l s).2.gain = ⟨l.threshold, v⟩ ∧
      gain_t.toRat ⟨l.threshold, v⟩ < 1) ∧
    (find_max_overflow s l.threshold = none →
      (limit_slice l s).1 = s ∧ (limit_slice l s).2.gain = gain_one) ∧
    (∃ g : gain_t, (limit_slice l s).1 = s.map (fun x => scale_sample x g) ∧
      (limit_slice l s).2.gain = g) := by
  refine ⟨find_max_overflow_none_iff s l.threshold (le_of_lt ht), ?_, ?_, ?_⟩
  · intro i v h
    obtain ⟨h1, h2, h3, h4, h5⟩ := find_max_overflow_spec s l.threshold i v h
    have hls := limit_slice_some l s i v h
    refine ⟨h1, h2, h3, h4, h5, by rw [hls], by rw [hls], ?_⟩
    unfold gain_t.toRat
    simp only
    rw [div_lt_one (by exact_mod_cast lt_trans ht h3)]
    exact_mod_cast h3
  · intro h
    have hls := limit_slice_none l s h
    exact ⟨by rw [hls], by rw [hls]⟩
  · rcases hfm : find_max_overflow s l.threshold with - | ⟨i, v⟩
    · have hls := limit_slice_none l s hfm
      exact ⟨gain_one, by rw [hls, map_scale_one], by rw [hls]⟩
    · have hls := limit_slice_some l s i v hfm
      exact ⟨⟨l.threshold, v⟩, by rw [hls], by rw [hls]⟩

/-- Witness for C4 on the concrete overflowing slice of the demo input. -/
theorem C4_witness :
    0 < demoLim.threshold ∧
    (find_max_overflow [-1000000, 0] demoLim.threshold = none ↔
      ∀ x ∈ [(-1000000 : Int), 0], |x| ≤ demoLim.threshold) :=
  ⟨by decide,
   (C4_peak_search_and_slice_atomicity demoLim [-1000000, 0] (by decide)).1⟩

/-- Counterexample to C3 as stated.  First part: in the 6-frame region
`[1,0, 1,0, 1,0, -1,0, 1,0, 1,0]` a genuine negative-to-positive crossing exists
between frames 3 and 4 (`crossOK _ 3`), yet the function returns `none` — the loop
counter `i` advances by `NUMBER_OF_CHANNELS` while being compared against
`size / NUMBER_OF_CHANNELS`, so only the first two frame pairs are ever scanned;
hence "returns none exactly when no such crossing exists anywhere in the region"
is false.  Second part: in `[-5,0, 10,10^9, 0,0]` the crossing frame (frame 1) has
a non-reference channel at `10^9`, far above 1% of full scale, so per the claim the
crossing must be rejected as fake — yet the code returns it, because it checks the
non-reference channel of the *preceding* frame (sample offset 1, which is 0). -/
theorem C3_counterexample :
    (find_next_zero_crossing [1, 0, 1, 0, 1, 0, -1, 0, 1, 0, 1, 0] 12 = none ∧
      crossOK [1, 0, 1, 0, 1, 0, -1, 0, 1, 0, 1, 0] 3) ∧
    (find_next_zero_crossing [-5, 0, 10, 1000000000, 0, 0] 6 = some 2 ∧
      MAX_ZERO_CROSSING_VALUE <
        |([(-5 : Int), 0, 10, 1000000000, 0, 0].getD 3 0)|) :=
  ⟨⟨by decide, by decide⟩, ⟨by decide, by decide⟩⟩

/-- C3 (amended): `find_next_zero_crossing` scans only the frame pairs `(j, j+1)`
with `2*j + 2 < size / 2` — roughly the first quarter of the region, because the C
loop counter `i` advances by `NUMBER_OF_CHANNELS` per frame while being compared
against `size / NUMBER_OF_CHANNELS` — and the "fake" check inspects the
non-reference channel of frame `j` (the frame *before* the crossing).  Within this
scanned prefix it returns the frame boundary `2*j + 2` of the first pair with
`reference[j] ≤ 0 < reference[j+1]` that is not fake (`crossOK`), and it returns
`none` exactly when no such non-fake crossing exists in the scanned prefix. -/
theorem C3_find_next_zero_crossing_characterization (ibuf : List Int)
    (size : Nat) :
    (∀ n, find_next_zero_crossing ibuf size = some n ↔
      ∃ j, n = 2 * j + 2 ∧ 2 * j + 2 < size / 2 ∧ crossOK ibuf j ∧
        ∀ j' < j, ¬ crossOK ibuf j') ∧
    (find_next_zero_crossing ibuf size = none ↔
      ∀ j, 2 * j + 2 < size / 2 → ¬ crossOK ibuf j) :=
  ⟨fun n => find_next_zero_crossing_some_iff ibuf size n,
   find_next_zero_crossing_none_iff ibuf size⟩

/-- Witness for C3 applying the characterization at a concrete region. -/
theorem C3_witness :
    find_next_zero_crossing [-5, 0, 10, 0, 0, 0, 0, 0] 8 = some 2 :=
  ((C3_find_next_zero_crossing_characterization [-5, 0, 10, 0, 0, 0, 0, 0] 8).1
    2).mpr
    ⟨0, rfl, by decide, by decide, fun j' h => absurd h (Nat.not_lt_zero j')⟩

/-- C1 is violated by the code (evaluation at a failing input).  Feed the twelve
samples `demo12` in one `flow` call (output capacity 12) into a 12-slot buffer
with threshold `500000`.  The engine resolves two slices: `[-1000, 0]` — clean,
`find_max_overflow` finds nothing in it — and `[10^6, 0, -10^6, 0]` — overflowing,
gain `1/2`.  The first `drain` call then emits the clean slice's first sample as
`-500` instead of the untouched `-1000`: drain's gain loop runs for `available`
(12) samples from the unprocessed start, wrapping around the double-mapped buffer
and re-scaling the already-processed clean slice by the persisting `1/2` gain.
The claim demands that samples of a slice without detected overflow be emitted
exactly equal to the input. -/
theorem C1_clean_slice_altered :
    (flow demoBuf12 demoLim demo12 12).map
        (fun r => (drain r.1 r.2.1 12).2.2.1) =
      some [-500, 0, 250000, 0, -250000, 0] ∧
    find_max_overflow [-1000, 0] demoLim.threshold = none ∧
    demo12.take 2 = [-1000, 0] ∧
    ((-500 : Int) = -1000 → False) :=
  ⟨by decide, by decide, by decide, by decide⟩

/-- C2 is violated by the code (evaluation at a failing input): feeding `demo10`
to a fresh 10-slot engine in one chunk produces
`[-250000, 0, 250000, 0, …]`, while feeding the same samples split as the first
six and last four produces `[-500000, 0, 500000, 0, …]` — the concatenation of
all produced output differs between the two chunkings, although every call uses
the same output capacity (10) and the same draining (three `drain` calls, enough
to reach the terminal state in both runs).  The root cause is `drain`'s gain
loop and `mark_processed` call using `available` instead of the unprocessed
count: how often the tail is re-scaled depends on how much lookahead had been
resolved but not yet emitted when input ended, which depends on the chunking. -/
theorem C2_chunking_divergence :
    runSession [demo10] demoBuf10 demoLim 10 3 =
      some [-250000, 0, 250000, 0, 0, 0, 0, 0, 0, 0] ∧
    runSession [demo10.take 6, demo10.drop 6] demoBuf10 demoLim 10 3 =
      some [-500000, 0, 500000, 0, 0, 0, 0, 0, 0, 0] ∧
    demo10.take 6 ++ demo10.drop 6 = demo10 ∧
    runSession [demo10] demoBuf10 demoLim 10 3 ≠
      runSession [demo10.take 6, demo10.drop 6] demoBuf10 demoLim 10 3 :=
  ⟨by decide, by decide, by decide, by decide⟩

/-- C5 is violated by the code (evaluation at a failing input).  After feeding
`demo10` in one `flow` call, the last computed gain is `500000/1000000 = 1/2`
and the residual unprocessed tail is `[10^6, 0, -1, 0, 1, 0, -1, 0]`; the claim
demands that drain apply that gain once to the tail and emit it, so the tail's
first sample must come out as `scale_sample 10^6 (1/2) = 500000`.  Draining to
completion instead emits it as `250000`: the first drain call scales the tail
but fails to mark it processed (`mark_processed` is called with `available`,
which exceeds the unprocessed count because two processed-but-unemitted samples
remain), so the second drain call scales the tail a second time before emitting
it. -/
theorem C5_drain_tail_double_scaled :
    (flow demoBuf10 demoLim demo10 10).map (fun r => r.2.1.gain) =
      some ⟨500000, 1000000⟩ ∧
    (flow demoBuf10 demoLim demo10 10).map (fun r =>
        readWrap r.1.data r.1.size (ring_buffer_get_start_unprocessed r.1)
          (ring_buffer_get_unprocessed r.1)) =
      some [1000000, 0, -1, 0, 1, 0, -1, 0] ∧
    scale_sample 1000000 ⟨500000, 1000000⟩ = 500000 ∧
    (flow demoBuf10 demoLim demo10 10).map (fun r =>
        (drainN 3 r.1 r.2.1 10).2.2) =
      some [-250000, 0, 250000, 0, 0, 0, 0, 0, 0, 0] ∧
    ((250000 : Int) = 500000 → False) :=
  ⟨by decide, by decide, by decide, by decide, by decide⟩

theorem DB_CO_zero : DB_CO 0 = 1 := by
  unfold DB_CO
  rw [if_pos (by norm_num), show ((0 : ℚ) : ℝ) * 0.05 = 0 by norm_num,
    Real.rpow_zero]

theorem getopts_stored_zero : getopts_stored 0 = none := by
  have hfl : ⌊(2147483648 : ℝ)⌋ = (2147483648 : ℤ) := by
    rw [show (2147483648 : ℝ) = ((2147483648 : ℤ) : ℝ) by norm_num,
      Int.floor_intCast]
  unfold getopts_stored getopts_product sox_sample_of_real SOX_SAMPLE_MAX_AS_FLOAT
  rw [DB_CO_zero, one_mul]
  simp only
  rw [if_pos (by norm_num : (0 : ℝ) ≤ 2147483648)]
  rw [if_neg (by rw [hfl]; norm_num)]

/-- Counterexample to C8 as stated, in two parts.  (1) The code accepts a
threshold of exactly `-40` dB (its check is `threshold > 0 || threshold < -40`),
but `-40` is not in the claimed half-open interval `(-40, 0]`.  (2) The code also
accepts `0` dB, and there the stored value is *not* a threshold with
`0 < threshold ≤ MAX`: the float computation is
`powf(10, 0) * (float)SOX_SAMPLE_MAX = 1 * 2^31 = 2^31` exactly, and converting
`2^31` to the int32 `sox_sample_t` overflows — undefined behavior, modelled as
`none` (`INT_MIN` on mainstream targets, likewise outside `(0, MAX]`). -/
theorem C8_counterexample :
    (getopts_accepts (some (-40)) = true ∧ (-40 : ℚ) ∉ Set.Ioc (-40 : ℚ) 0) ∧
    (getopts_accepts (some 0) = true ∧ getopts_stored 0 = none) :=
  ⟨⟨by decide, by simp⟩, ⟨by decide, getopts_stored_zero⟩⟩

theorem drain_limiter_eq (b : ring_buffer_t) (l : limiter_t) (osamp : Nat) :
    (drain b l osamp).2.1 = (process_our_buffer b l).2 := by
  unfold drain
  simp only
  split_ifs <;> rfl

theorem flow_limiter_threshold (b : ring_buffer_t) (l : limiter_t)
    (ibuf : List Int) (osamp : Nat) (b' : ring_buffer_t) (l' : limiter_t)
    (obuf : List Int) (i o : Nat)
    (h : flow b l ibuf osamp = some (b', l', obuf, i, o)) :
    l'.threshold = l.threshold := by
  unfold flow at h
  simp only at h
  split at h
  · exact absurd h (by simp)
  · rename_i b2 heq
    have h2 := Option.some.inj h
    have h3 := congrArg
      (fun t : ring_buffer_t × limiter_t × List Int × Nat × Nat =>
        t.2.1.threshold) h2
    simp only at h3
    rw [← h3]
    exact (process_our_buffer_book b2 l).2.2.2.2.2.2

/-- C8 (amended): configuration succeeds exactly when the argument is a
parseable number in the *closed* interval `[-40, 0]` (the code accepts `-40`
itself).  On success the stored linear threshold is the int32 conversion of the
float product `DB_CO(db) * (float)SOX_SAMPLE_MAX` — the int operand converts to
the float `2^31`, not `MAX` — so the stored value, *whenever the conversion is
defined*, is the truncation of `10^(db/20) * 2^31` and satisfies
`0 < threshold ≤ SOX_SAMPLE_MAX`; the conversion is not defined at every
accepted input (at `0` dB the product is exactly `2^31` and the store overflows,
see the counterexample), but the product always lies in `(0, 2^31]`.  The
limiter's threshold field is never changed afterwards by `process_our_buffer`,
`flow` or `drain` (immutability). -/
theorem C8_configure_range (arg : Option ℚ) :
    (getopts_accepts arg = true ↔ ∃ db, arg = some db ∧ -40 ≤ db ∧ db ≤ 0) ∧
    (∀ db : ℚ, -40 ≤ db → db ≤ 0 →
      0 < getopts_product db ∧
      getopts_product db ≤ SOX_SAMPLE_MAX_AS_FLOAT ∧
      ∀ t, getopts_stored db = some t →
        t = ⌊getopts_product db⌋ ∧ 0 < t ∧ t ≤ SOX_SAMPLE_MAX) ∧
    (∀ (b : ring_buffer_t) (l : limiter_t) (ibuf : List Int) (osamp : Nat),
      (process_our_buffer b l).2.threshold = l.threshold ∧
      (drain b l osamp).2.1.threshold = l.threshold ∧
      ∀ b' l' obuf i o, flow b l ibuf osamp = some (b', l', obuf, i, o) →
        l'.threshold = l.threshold) := by
  refine ⟨?_, ?_, ?_⟩
  · cases arg with
    | none => simp [getopts_accepts]
    | some q =>
        simp only [getopts_accepts]
        split_ifs with hq
        · refine iff_of_false (by simp) ?_
          rintro ⟨db, hdb, h1, h2⟩
          rw [Option.some_inj] at hdb
          subst hdb
          rcases hq with h | h
          · exact absurd h (not_lt.mpr h2)
          · exact absurd h (not_lt.mpr h1)
        · rw [not_or] at hq
          exact iff_of_true rfl ⟨q, rfl, not_lt.mp hq.2, not_lt.mp hq.1⟩
  · intro db h1 h2
    have h40 : (-40 : ℝ) ≤ (db : ℝ) := by exact_mod_cast h1
    have hdb0 : (db : ℝ) ≤ 0 := by exact_mod_cast h2
    have hgt : (-90 : ℝ) < (db : ℝ) := by linarith
    have hDB : DB_CO db = (10 : ℝ) ^ ((db : ℝ) * 0.05) := by
      unfold DB_CO
      rw [if_pos hgt]
    have hppos : (0 : ℝ) < (10 : ℝ) ^ ((db : ℝ) * 0.05) :=
      Real.rpow_pos_of_pos (by norm_num) _
    have hple : (10 : ℝ) ^ ((db : ℝ) * 0.05) ≤ 1 :=
      Real.rpow_le_one_of_one_le_of_nonpos (by norm_num) (by linarith)
    have hplo : (10 : ℝ) ^ (((-2 : ℤ)) : ℝ) ≤ (10 : ℝ) ^ ((db : ℝ) * 0.05) :=
      Real.rpow_le_rpow_of_exponent_le (by norm_num) (by push_cast; linarith)
    have hplo' : (1 / 100 : ℝ) ≤ (10 : ℝ) ^ ((db : ℝ) * 0.05) := by
      refine le_trans (le_of_eq ?_) hplo
      rw [Real.rpow_intCast]
      norm_num
    have hprodpos : 0 < getopts_product db := by
      unfold getopts_product SOX_SAMPLE_MAX_AS_FLOAT
      rw [hDB]
      exact mul_pos hppos (by norm_num)
    have hprodle : getopts_product db ≤ SOX_SAMPLE_MAX_AS_FLOAT := by
      unfold getopts_product SOX_SAMPLE_MAX_AS_FLOAT
      rw [hDB]
      linarith
    have hprodge : (1 : ℝ) ≤ getopts_product db := by
      unfold getopts_product SOX_SAMPLE_MAX_AS_FLOAT
      rw [hDB]
      linarith
    refine ⟨hprodpos, hprodle, ?_⟩
    intro t ht
    unfold getopts_stored sox_sample_of_real at ht
    simp only at ht
    rw [if_pos (le_of_lt hprodpos)] at ht
    split_ifs at ht with hg
    · rw [Option.some_inj] at ht
      subst ht
      refine ⟨rfl, ?_, ?_⟩
      · have h1f : (1 : ℤ) ≤ ⌊getopts_product db⌋ :=
          Int.le_floor.mpr (by push_cast; exact hprodge)
        omega
      · unfold SOX_SAMPLE_MAX
        omega
  · intro b l ibuf osamp
    refine ⟨(process_our_buffer_book b l).2.2.2.2.2.2, ?_, ?_⟩
    · rw [drain_limiter_eq]
      exact (process_our_buffer_book b l).2.2.2.2.2.2
    · intro b' l' obuf i o h
      exact flow_limiter_threshold b l ibuf osamp b' l' obuf i o h

/-- Witness for C8: `-6` dB is accepted. -/
theorem C8_witness : getopts_accepts (some (-6)) = true :=
  ((C8_configure_range (some (-6))).1).mpr ⟨-6, rfl, by decide, by decide⟩
